import Mathlib

/-!
Verification of the UTMA adaptive distributed grid-search orchestrator
(`topic_analysis2.py` and `SLIF/utils.py`).

The shallow embedding below translates the orchestrator's pure decision
logic into Lean: hyperparameter-grid construction, combination sampling,
throttle backoff, the per-phase submission loops, the model-index
bookkeeping, and the sweep loop that threads the model index across
iterations.  Python floats are modelled as exact rationals (the counts
and comparisons the theorems depend on are unaffected by rounding at
these magnitudes); the distributed substrate (Dask) is abstracted to
opaque batch handles and a submission step that either succeeds or
raises, driven by an explicit failure oracle.
-/

namespace UTMA

/-- Phase tag of a combination: the `phases` list of topic_analysis2.py
line 521 is `["train", "validation", "test"]`. -/
inductive Phase where
  | train
  | validation
  | test
  deriving DecidableEq

/-- A prior value (alpha or beta axis entry): either a symbolic string
(`'symmetric'` / `'asymmetric'`) or a numeric value (modelled as ℚ). -/
inductive Prior where
  | symmetric
  | asymmetric
  | num (q : ℚ)
  deriving DecidableEq

/-- ModelIndex key: `(n_topics, alpha_value, beta_value)` as used at
topic_analysis2.py lines 637, 661 and 700. -/
abbrev KeyT := Nat × Prior × Prior

/-- A grid combination `(n_topics, alpha_value, beta_value, train_eval_type)`
(topic_analysis2.py line 522). -/
abbrev Combo := Nat × Prior × Prior × Phase

/-- The ModelIndex lookup key of a combination: drop the phase component. -/
def comboKey (c : Combo) : KeyT := (c.1, c.2.1, c.2.2.1)

/-- A shared concrete combination used by witnesses and counterexamples:
topic count 1, both priors symbolic 'symmetric', train phase. -/
def comboEx : Combo := (1, Prior.symmetric, Prior.symmetric, Phase.train)

/-- A second concrete combination with a different ModelIndex key (topic
count 2). -/
def comboEx2 : Combo := (2, Prior.symmetric, Prior.symmetric, Phase.train)

/-- Python `range(start, stop, step)` for a positive step: the element
count is `⌈(stop - start) / step⌉` clamped at 0, elements `start + step*i`. -/
def pyRange (start stop step : Nat) : List Nat :=
  (List.range ((stop - start + step - 1) / step)).map (fun i => start + step * i)

/-- `np.arange(start, stop, step)` for a positive rational step:
`⌈(stop - start) / step⌉` elements `start + step*i`. -/
def npArange (start stop step : ℚ) : List ℚ :=
  (List.range (Int.toNat ⌈(stop - start) / step⌉)).map (fun (i : Nat) => start + step * (i : ℚ))

/-- The topic-count axis `range(START_TOPICS, END_TOPICS + 1, STEP_SIZE)`
(topic_analysis2.py lines 483 and 522). -/
def topicAxis (startTopics endTopics stepSize : Nat) : List Nat :=
  pyRange startTopics (endTopics + 1) stepSize

/-- `num_topics = len(range(START_TOPICS, END_TOPICS + 1, STEP_SIZE))`
(topic_analysis2.py line 483). -/
def num_topics (startTopics endTopics stepSize : Nat) : Nat :=
  (topicAxis startTopics endTopics stepSize).length

/-- `numeric_symmetric = 1.0 / num_topics` (topic_analysis2.py line 489). -/
def numeric_symmetric (startTopics endTopics stepSize : Nat) : ℚ :=
  1 / (num_topics startTopics endTopics stepSize : ℚ)

/-- `alpha_values = ['symmetric', 'asymmetric'] + np.arange(0.01, 1, 0.3).tolist()`
(topic_analysis2.py lines 504-505). -/
def alpha_values : List Prior :=
  [Prior.symmetric, Prior.asymmetric] ++ (npArange (1/100) 1 (3/10)).map Prior.num

/-- `beta_values = ['symmetric'] + np.arange(0.01, 1, 0.3).tolist()`
(topic_analysis2.py lines 514-515). -/
def beta_values : List Prior :=
  [Prior.symmetric] ++ (npArange (1/100) 1 (3/10)).map Prior.num

/-- The phase axis (topic_analysis2.py line 521). -/
def phasesList : List Phase := [Phase.train, Phase.validation, Phase.test]

/-- `combinations = list(itertools.product(range(...), alpha_values, beta_values, phases))`
(topic_analysis2.py line 522): the full Cartesian product, in product order. -/
def combinationsList (startTopics endTopics stepSize : Nat) : List Combo :=
  (topicAxis startTopics endTopics stepSize).flatMap (fun t =>
    alpha_values.flatMap (fun a =>
      beta_values.flatMap (fun b =>
        phasesList.map (fun p => (t, a, b, p)))))

/-- `sample_size = min(max(1, int(len(combinations) * sample_fraction)), len(combinations))`
(topic_analysis2.py line 527).  Python `int()` truncates toward zero; for a
nonnegative product that is the floor, and for a negative product both
truncation and floor are clamped to 1 by the `max`, so `⌊·⌋.toNat` is an
exact model after the clamp. -/
def sample_size (fraction : ℚ) (total : Nat) : Nat :=
  min (max 1 (Int.toNat ⌊fraction * (total : ℚ)⌋)) total

/-- `random.sample(population, k)` draws `k` distinct positions; the draw is
modelled by an explicit list of indices into the population (distinctness
and validity are hypotheses where a theorem needs them). -/
def pySample {α : Type} (pop : List α) (idxs : List Nat) : List α :=
  idxs.filterMap (fun i => pop.get? i)

/-- One worker's live metrics as reported by `client.scheduler_info()`
(topic_analysis2.py lines 577-579). -/
structure WorkerMetrics where
  cpu : ℚ
  memory : ℚ
  deriving DecidableEq

/-- `all(worker['metrics']['cpu'] < CPU_UTILIZATION_THRESHOLD ...) and
all(worker['metrics']['memory'] < MEMORY_UTILIZATION_THRESHOLD ...)`
(topic_analysis2.py lines 578-581): true when every worker is strictly
below both thresholds (true for an empty worker list, as Python's `all`). -/
def allBelowThresholds (workers : List WorkerMetrics) (cpuT memT : ℚ) : Bool :=
  workers.all (fun w => w.cpu < cpuT) && workers.all (fun w => w.memory < memT)

/-- `exponential_backoff(attempt, BASE_WAIT_TIME=None)` returns
`BASE_WAIT_TIME * (2 ** attempt)` (SLIF/utils.py lines 30-31).  The default
`None` for `BASE_WAIT_TIME` makes the multiplication raise a `TypeError`,
modelled as `Except.error`; a numeric base yields the wait duration. -/
def exponential_backoff (attempt : Nat) (baseWaitTime : Option ℚ) : Except String ℚ :=
  match baseWaitTime with
  | none => Except.error "TypeError: unsupported operand type for *: NoneType and int"
  | some b => Except.ok (b * 2 ^ attempt)

/-- The throttle loop `while throttle_attempt < MAX_RETRIES` of
topic_analysis2.py lines 576-588, with `fuel = MAX_RETRIES - attempt`.
`poll k` gives the worker metrics observed at attempt `k`.  Returns the
list of sleep durations performed (each `BASE_WAIT_TIME * 2 ^ attempt`,
the successful case of `exponential_backoff`) and the final value of
`throttle_attempt`. -/
def throttleLoop (poll : Nat → List WorkerMetrics) (cpuT memT baseWait : ℚ) :
    Nat → Nat → List ℚ × Nat
  | attempt, 0 => ([], attempt)
  | attempt, fuel + 1 =>
    if allBelowThresholds (poll attempt) cpuT memT then
      ([], attempt)
    else
      let r := throttleLoop poll cpuT memT baseWait (attempt + 1) fuel
      (baseWait * 2 ^ attempt :: r.1, r.2)

/-- The full admission check (topic_analysis2.py lines 572-594): run the
throttle loop from attempt 0 and report exhaustion exactly when the final
`throttle_attempt` equals `MAX_RETRIES` (line 590); the caller proceeds
with submission in either case. -/
def throttleRun (poll : Nat → List WorkerMetrics) (cpuT memT baseWait : ℚ)
    (maxRetries : Nat) : List ℚ × Bool :=
  let r := throttleLoop poll cpuT memT baseWait 0 maxRetries
  (r.1, r.2 == maxRetries)

/-- Python dict lookup in `train_models_dict` (`model_key in train_models_dict`
then `train_models_dict[model_key]`, topic_analysis2.py lines 661-663 and
700-702).  The index is stored as an association list where an assignment
prepends, so the first match is the most recent write (last-writer-wins). -/
def dictLookup (idx : List (KeyT × Nat)) (k : KeyT) : Option Nat :=
  match idx with
  | [] => none
  | (k1, v) :: rest => if k1 = k then some v else dictLookup rest k

/-- A submitted validation (or test) task: the iteration it was submitted in,
the batch position it came from, the ModelIndex key it was looked up under,
and the retrieved model artifact.  The artifact is identified by the sweep
iteration during which its training wave wrote it into the index, which is
what the cross-iteration claims are about. -/
structure ValTask where
  iteration : Nat
  batchIdx : Nat
  key : KeyT
  artifact : Nat
  deriving DecidableEq

/-- Tag a list's elements with their positions starting at `s`. -/
def enumFrom {α : Type} : Nat → List α → List (Nat × α)
  | _, [] => []
  | s, x :: xs => (s, x) :: enumFrom (s + 1) xs

/-- `validation_batches = [{'data': ..., 'n_topics': n, 'alpha': a, 'beta': b}
for tokenized_list, (n, a, b, _) in zip(scattered_validation_data_futures,
random_combinations)]` (topic_analysis2.py lines 644-647): the j-th
validation-pool handle is paired with the key of the j-th sampled
combination, truncating to the shorter list as Python `zip` does. -/
def validationBatches (pool : List Nat) (combos : List Combo) : List (Nat × KeyT) :=
  (pool.zip combos).map (fun hc => (hc.1, comboKey hc.2))

/-- The validation submission loop (topic_analysis2.py lines 649-680): for
each indexed batch `(j, handle, key)`, look the key up in the model index;
a miss logs one error and skips the batch (line 666-667); a hit submits a
task unless the submission itself raises, in which case the `except` clause
logs and the loop continues (lines 678-680).  `fail h` says whether
submitting handle `h` raises.  Returns (submitted tasks, miss logs,
exception logs), each log carrying the batch index and key. -/
def valSubmit (fail : Nat → Bool) (idx : List (KeyT × Nat)) (iter : Nat) :
    List (Nat × Nat × KeyT) → List ValTask × List (Nat × KeyT) × List (Nat × KeyT)
  | [] => ([], [], [])
  | (j, h, k) :: rest =>
    let r := valSubmit fail idx iter rest
    match dictLookup idx k with
    | none => (r.1, (j, k) :: r.2.1, r.2.2)
    | some m =>
      match fail h with
      | true => (r.1, r.2.1, (j, k) :: r.2.2)
      | false => (⟨iter, j, k, m⟩ :: r.1, r.2.1, r.2.2)

/-- The test submission loop (topic_analysis2.py lines 691-716): identical
lookup-or-skip policy, except each batch carries its own key derived from
metadata embedded in the scattered test handle (lines 694-697) rather than
a zip with the sampled combinations. -/
def testSubmit (fail : Nat → Bool) (idx : List (KeyT × Nat)) (iter : Nat) :
    List (Nat × Nat × KeyT) → List ValTask × List (Nat × KeyT) × List (Nat × KeyT)
  | [] => ([], [], [])
  | (j, h, k) :: rest =>
    let r := testSubmit fail idx iter rest
    match dictLookup idx k with
    | none => (r.1, (j, k) :: r.2.1, r.2.2)
    | some m =>
      match fail h with
      | true => (r.1, r.2.1, (j, k) :: r.2.2)
      | false => (⟨iter, j, k, m⟩ :: r.1, r.2.1, r.2.2)

/-- The training submission loop (topic_analysis2.py lines 599-610): one
`client.submit` per train-pool handle, all parameterized by the current
combination's key.  A raising submission is logged with the full parameter
context and re-raised (`raise`, line 610), halting the run: modelled as
`Except.error` carrying the logged context, produced at the first failing
handle.  On success, the futures list pairs the key with each handle. -/
def trainSubmit (fail : Nat → Bool) (k : KeyT) : List Nat → Except KeyT (List (KeyT × Nat))
  | [] => Except.ok []
  | h :: rest =>
    match fail h with
    | true => Except.error k
    | false =>
      match trainSubmit fail k rest with
      | Except.ok fs => Except.ok ((k, h) :: fs)
      | Except.error e => Except.error e

/-- TRAIN_WAIT's bookkeeping (topic_analysis2.py lines 611-639): every
completed training future of iteration `i` writes
`train_models_dict[(n_topics, alpha, beta)] = ldamodel` with the current
combination's key; the artifact is tagged with the iteration `i` that
trained it.  Each write prepends, so a later write shadows an earlier one
under `dictLookup` (last-writer-wins). -/
def trainWave (idx : List (KeyT × Nat)) (i : Nat) (k : KeyT) (trainPool : List Nat) :
    List (KeyT × Nat) :=
  trainPool.foldl (fun d _ => (k, i) :: d) idx

/-- The sweep loop over the sampled combinations (topic_analysis2.py
lines 566-797), restricted to the state the cross-iteration claims
consult: iteration `i` runs a training wave for the current combination
(writing into the model index), then the validation submission over
`validationBatches valPool allCombos` — note the zip is with the whole
sampled list `allCombos`, recomputed identically every iteration.  RECYCLE
(lines 791-797) clears the per-iteration futures lists — reflected in each
iteration starting from empty task lists — but `train_models_dict` is
never cleared: the index is threaded through unchanged.  Submissions are
failure-free here (`fail = false`); the failure oracle is exercised by the
dedicated error-handling theorems.  Returns the final model index and all
validation tasks submitted across the sweep. -/
def sweepFrom (trainPool valPool : List Nat) (allCombos : List Combo) :
    Nat → List Combo → List (KeyT × Nat) → List (KeyT × Nat) × List ValTask
  | _, [], idx => (idx, [])
  | i, c :: rest, idx =>
    let idx1 := trainWave idx i (comboKey c) trainPool
    let w := valSubmit (fun _ => false) idx1 i
      (enumFrom 0 (validationBatches valPool allCombos))
    let r := sweepFrom trainPool valPool allCombos (i + 1) rest idx1
    (r.1, w.1 ++ r.2)

/-- Run the whole sweep from iteration 0 with an empty `train_models_dict`
(topic_analysis2.py line 566). -/
def sweepRun (trainPool valPool : List Nat) (combos : List Combo) :
    List (KeyT × Nat) × List ValTask :=
  sweepFrom trainPool valPool combos 0 combos []

/-! ### Helper lemmas -/

/-- Everything drawn by `pySample` comes from the population. -/
theorem pySample_subset {α : Type} (pop : List α) (idxs : List Nat) :
    ∀ a ∈ pySample pop idxs, a ∈ pop := by
  intro a ha
  simp only [pySample, List.mem_filterMap] at ha
  obtain ⟨i, _, hi⟩ := ha
  exact List.get?_mem hi

/-- When every index is in range, `pySample` draws exactly one element per
index. -/
theorem pySample_length {α : Type} (pop : List α) (idxs : List Nat)
    (hvalid : ∀ i ∈ idxs, i < pop.length) :
    (pySample pop idxs).length = idxs.length := by
  induction idxs with
  | nil => rfl
  | cons i is ih =>
    have hi : i < pop.length := hvalid i (List.mem_cons_self i is)
    have hsome : pop.get? i = some (pop.get ⟨i, hi⟩) := List.get?_eq_get hi
    simp only [pySample, List.filterMap_cons, hsome, List.length_cons]
    have := ih (fun j hj => hvalid j (List.mem_cons_of_mem i hj))
    simp only [pySample] at this
    omega

/-- `np.arange(0.01, 1, 0.3)` evaluates to the four values
`[0.01, 0.31, 0.61, 0.91]`. -/
theorem npArange_eval : npArange (1/100) 1 (3/10) = [1/100, 31/100, 61/100, 91/100] := by
  have hc : (⌈((1 : ℚ) - 1/100) / (3/10)⌉ : ℤ) = 4 := by norm_num [Int.ceil_eq_iff]
  have hr : List.range 4 = [0, 1, 2, 3] := by decide
  rw [npArange, hc]
  show (List.range 4).map _ = _
  rw [hr]
  simp only [List.map_cons, List.map_nil]
  norm_num

/-- The alpha axis has 2 symbolic plus 4 numeric entries. -/
theorem alpha_values_length : alpha_values.length = 6 := by
  rw [alpha_values, npArange_eval]; rfl

/-- The beta axis has 1 symbolic plus 4 numeric entries. -/
theorem beta_values_length : beta_values.length = 5 := by
  rw [beta_values, npArange_eval]; rfl

/-- A flatMap whose pieces all have the same length `c` has length
`l.length * c`. -/
theorem length_flatMap_const {α β : Type} (l : List α) (f : α → List β) (c : Nat)
    (h : ∀ a ∈ l, (f a).length = c) : (l.flatMap f).length = l.length * c := by
  induction l with
  | nil => simp
  | cons x xs ih =>
    have hx := h x (List.mem_cons_self x xs)
    have hrest := ih (fun a ha => h a (List.mem_cons_of_mem x ha))
    simp only [List.flatMap_cons, List.length_append, List.length_cons, hx, hrest]
    ring

/-- The grid size is `num_topics * 6 * 5 * 3`. -/
theorem combinationsList_length (s e st : Nat) :
    (combinationsList s e st).length = (topicAxis s e st).length * 90 := by
  rw [combinationsList]
  refine length_flatMap_const _ _ 90 (fun t _ => ?_)
  have hb : ∀ a : Prior,
      (beta_values.flatMap (fun b => phasesList.map (fun p => (t, a, b, p)))).length = 15 := by
    intro a
    rw [length_flatMap_const beta_values (fun b => phasesList.map (fun p => (t, a, b, p))) 3
      (fun b hbm => rfl), beta_values_length]
  rw [length_flatMap_const alpha_values
    (fun a => beta_values.flatMap (fun b => phasesList.map (fun p => (t, a, b, p)))) 15
    (fun a ham => hb a), alpha_values_length]

/-- With topic range {5, 10} and step 5 the full product has
`2 * 6 * 5 * 3 = 180` combinations. -/
theorem combinationsList_concrete_length : (combinationsList 5 10 5).length = 180 := by
  rw [combinationsList_length]
  rfl

/-- `sample_size(0.375, 180) = int(67.5) = 67`. -/
theorem sample_size_concrete : sample_size (3/8) 180 = 67 := by
  have h : (⌊(3/8 : ℚ) * ((180 : Nat) : ℚ)⌋ : ℤ) = 67 := by norm_num
  rw [sample_size, h]; rfl

/-! ### C5: sample-size formula -/

/-- C5 counterexample: the claim says the number of sampled combinations is
`clamp(round(f * N), 1, N)`.  At the program's own fraction `f = 0.375` and
the full grid size `N = 180`, the code computes
`min(max(1, int(0.375 * 180)), 180) = int(67.5) = 67` — Python `int()`
truncates — while round-to-nearest gives `68`. -/
theorem sample_size_round_counterexample :
    sample_size (3/8) 180 = 67 ∧
    min (max 1 (Int.toNat (round ((3/8 : ℚ) * ((180 : Nat) : ℚ))))) 180 = 68 ∧
    (67 : Nat) ≠ 68 := by
  refine ⟨sample_size_concrete, ?_, by decide⟩
  have h : (round ((3/8 : ℚ) * ((180 : Nat) : ℚ)) : ℤ) = 68 := by rw [round_eq]; norm_num
  rw [h]; rfl

/-- C5 amended: for every sampling fraction `f` and population of size
`N ≥ 1`, the number of sampled combinations equals
`clamp(trunc(f * N), 1, N)` — truncation toward zero (`int()`), not
round-to-nearest, bounded below by 1 and above by N.  The draw is modelled
by a list of distinct in-range indices of length `sample_size`, as
`random.sample` guarantees. -/
theorem sample_size_amended (fraction : ℚ) (pop : List Combo) (idxs : List Nat)
    (_hnd : idxs.Nodup)
    (hvalid : ∀ i ∈ idxs, i < pop.length)
    (hlen : idxs.length = sample_size fraction pop.length) :
    (pySample pop idxs).length =
      min (max 1 (Int.toNat ⌊fraction * (pop.length : ℚ)⌋)) pop.length := by
  rw [pySample_length pop idxs hvalid, hlen]; rfl

/-- Witness for the amended C5 theorem at fraction 1 over a one-element
population sampled at index 0. -/
theorem sample_size_amended_witness :
    (pySample [comboEx] [0]).length =
      min (max 1 (Int.toNat ⌊(1 : ℚ) * ((([comboEx] : List Combo).length : Nat) : ℚ)⌋))
        ([comboEx] : List Combo).length :=
  sample_size_amended 1 [comboEx] [0] (by decide) (by decide) (by norm_num [sample_size])

/-! ### C6: sampled/remainder partition -/

/-- C6: the sampled set and the remainder
`undrawn_combinations = list(set(combinations) - set(random_combinations))`
are disjoint and their union is the full Cartesian product of the
configured axes, for every topic-range configuration and every draw. -/
theorem sampled_remainder_partition (startTopics endTopics stepSize : Nat)
    (idxs : List Nat) :
    Disjoint (pySample (combinationsList startTopics endTopics stepSize) idxs).toFinset
      ((combinationsList startTopics endTopics stepSize).toFinset \
        (pySample (combinationsList startTopics endTopics stepSize) idxs).toFinset) ∧
    (pySample (combinationsList startTopics endTopics stepSize) idxs).toFinset ∪
      ((combinationsList startTopics endTopics stepSize).toFinset \
        (pySample (combinationsList startTopics endTopics stepSize) idxs).toFinset) =
      (combinationsList startTopics endTopics stepSize).toFinset := by
  have hsub : (pySample (combinationsList startTopics endTopics stepSize) idxs).toFinset ⊆
      (combinationsList startTopics endTopics stepSize).toFinset := by
    intro a ha
    rw [List.mem_toFinset] at *
    exact pySample_subset _ _ a ha
  exact ⟨Finset.disjoint_sdiff, Finset.union_sdiff_of_subset hsub⟩

/-! ### C8: concrete grid scenario -/

/-- C8 counterexample: with topic range {5, 10} and step 5 the full
combination product has `2 * 6 * 5 * 3 = 180` elements — the alpha axis
holds 2 symbolic plus 4 numeric values and the beta axis 1 symbolic plus 4
numeric values — not `2 * 2 * 2 * 3 = 24`, and the sample size at fraction
0.375 is 67, not 9. -/
theorem grid_scenario_counterexample :
    (combinationsList 5 10 5).length = 180 ∧
    (combinationsList 5 10 5).length ≠ 24 ∧
    sample_size (3/8) (combinationsList 5 10 5).length = 67 ∧
    sample_size (3/8) (combinationsList 5 10 5).length ≠ 9 := by
  refine ⟨combinationsList_concrete_length, ?_, ?_, ?_⟩
  · rw [combinationsList_concrete_length]; decide
  · rw [combinationsList_concrete_length]; exact sample_size_concrete
  · rw [combinationsList_concrete_length, sample_size_concrete]; decide

/-- C8 amended: with topic range {5, 10} and step 5, `num_topics = 2` and
`numeric_symmetric = 1/2` as claimed, but the axes have 6 alpha and 5 beta
entries, the full product has `2 * 6 * 5 * 3 = 180` combinations, and
sampling fraction 0.375 yields `sample_size = int(0.375 * 180) = 67`. -/
theorem grid_scenario_amended :
    num_topics 5 10 5 = 2 ∧
    numeric_symmetric 5 10 5 = 1 / 2 ∧
    alpha_values.length = 6 ∧
    beta_values.length = 5 ∧
    (combinationsList 5 10 5).length = 2 * 6 * 5 * 3 ∧
    sample_size (3/8) (combinationsList 5 10 5).length = 67 := by
  refine ⟨by decide, ?_, alpha_values_length, beta_values_length, ?_, ?_⟩
  · have h : num_topics 5 10 5 = 2 := by decide
    rw [numeric_symmetric, h]; norm_num
  · rw [combinationsList_concrete_length]
  · rw [combinationsList_concrete_length]; exact sample_size_concrete

/-! ### C10: exponential_backoff default argument -/

/-- C10: calling `exponential_backoff(attempt)` without supplying
`BASE_WAIT_TIME` leaves the default `None`, and `None * (2 ** attempt)`
raises a `TypeError` for every attempt value; with a numeric base the
function returns `BASE_WAIT_TIME * 2 ^ attempt`. -/
theorem exponential_backoff_none_raises (attempt : Nat) :
    (∃ msg, exponential_backoff attempt none = Except.error msg) ∧
    ∀ b : ℚ, exponential_backoff attempt (some b) = Except.ok (b * 2 ^ attempt) :=
  ⟨⟨_, rfl⟩, fun _ => rfl⟩

/-! ### C2: throttle backoff -/

/-- If every poll in the window is over threshold, the throttle loop sleeps
once per remaining attempt, with exponentially growing durations, and exits
with `throttle_attempt = attempt + fuel`. -/
theorem throttleLoop_all_bad (poll : Nat → List WorkerMetrics) (cpuT memT base : ℚ) :
    ∀ fuel attempt,
      (∀ k, attempt ≤ k → k < attempt + fuel →
        allBelowThresholds (poll k) cpuT memT = false) →
      throttleLoop poll cpuT memT base attempt fuel =
        ((List.range fuel).map (fun d => base * 2 ^ (attempt + d)), attempt + fuel) := by
  intro fuel
  induction fuel with
  | zero => intro attempt _; simp [throttleLoop]
  | succ n ih =>
    intro attempt hbad
    have h0 : allBelowThresholds (poll attempt) cpuT memT = false :=
      hbad attempt le_rfl (by omega)
    have hrec := ih (attempt + 1) (fun k hk1 hk2 => hbad k (by omega) (by omega))
    simp only [throttleLoop, h0, Bool.false_eq_true, if_false, hrec]
    rw [List.range_succ_eq_map, List.map_cons, List.map_map]
    simp only [Prod.mk.injEq, List.cons.injEq]
    refine ⟨⟨by rw [Nat.add_zero], ?_⟩, by omega⟩
    apply List.map_congr_left
    intro d _
    simp only [Function.comp_apply, Nat.succ_eq_add_one]
    rw [show attempt + 1 + d = attempt + (d + 1) from by omega]

/-- If the first below-threshold poll happens at attempt `attempt + d` with
`d` inside the window, the loop sleeps exactly `d` times and exits with
`throttle_attempt = attempt + d`. -/
theorem throttleLoop_first_good (poll : Nat → List WorkerMetrics) (cpuT memT base : ℚ) :
    ∀ d fuel attempt, d < fuel →
      allBelowThresholds (poll (attempt + d)) cpuT memT = true →
      (∀ k, attempt ≤ k → k < attempt + d →
        allBelowThresholds (poll k) cpuT memT = false) →
      throttleLoop poll cpuT memT base attempt fuel =
        ((List.range d).map (fun i => base * 2 ^ (attempt + i)), attempt + d) := by
  intro d
  induction d with
  | zero =>
    intro fuel attempt hlt hgood _
    obtain ⟨m, rfl⟩ : ∃ m, fuel = m + 1 := ⟨fuel - 1, by omega⟩
    rw [Nat.add_zero] at hgood
    simp [throttleLoop, hgood]
  | succ n ih =>
    intro fuel attempt hlt hgood hbad
    obtain ⟨m, rfl⟩ : ∃ m, fuel = m + 1 := ⟨fuel - 1, by omega⟩
    have h0 : allBelowThresholds (poll attempt) cpuT memT = false :=
      hbad attempt le_rfl (by omega)
    have hrec := ih m (attempt + 1) (by omega)
      (by rw [show attempt + 1 + n = attempt + (n + 1) by omega]; exact hgood)
      (fun k hk1 hk2 => hbad k (by omega) (by omega))
    simp only [throttleLoop, h0, Bool.false_eq_true, if_false, hrec]
    rw [List.range_succ_eq_map, List.map_cons, List.map_map]
    simp only [Prod.mk.injEq, List.cons.injEq]
    refine ⟨⟨by rw [Nat.add_zero], ?_⟩, by omega⟩
    apply List.map_congr_left
    intro i _
    simp only [Function.comp_apply, Nat.succ_eq_add_one]
    rw [show attempt + 1 + i = attempt + (i + 1) from by omega]

/-- C2: when every poll reports some worker at or above the CPU or memory
threshold, the admission check sleeps exactly `MAX_RETRIES` times, the k-th
sleep lasting `BASE_WAIT_TIME * 2 ^ k`, then reports exhaustion (the caller
proceeds with submission anyway, lines 590-594); when some poll finds all
workers below both thresholds, it proceeds right after that poll with only
the sleeps already performed, and does not report exhaustion. -/
theorem throttle_backoff_spec (poll : Nat → List WorkerMetrics)
    (cpuT memT baseWait : ℚ) (maxRetries : Nat) :
    ((∀ k, k < maxRetries → allBelowThresholds (poll k) cpuT memT = false) →
      throttleRun poll cpuT memT baseWait maxRetries =
        ((List.range maxRetries).map (fun k => baseWait * 2 ^ k), true)) ∧
    (∀ j, j < maxRetries → allBelowThresholds (poll j) cpuT memT = true →
      (∀ k, k < j → allBelowThresholds (poll k) cpuT memT = false) →
      throttleRun poll cpuT memT baseWait maxRetries =
        ((List.range j).map (fun k => baseWait * 2 ^ k), false)) := by
  constructor
  · intro hbad
    rw [throttleRun,
      throttleLoop_all_bad poll cpuT memT baseWait maxRetries 0
        (fun k _ hk => hbad k (by omega))]
    simp
  · intro j hj hgood hbad
    rw [throttleRun,
      throttleLoop_first_good poll cpuT memT baseWait j maxRetries 0 hj
        (by rw [Nat.zero_add]; exact hgood)
        (fun k hk1 hk2 => hbad k (by omega))]
    simp only [Nat.zero_add]
    have : (j == maxRetries) = false := by
      simp only [beq_eq_false_iff_ne]
      omega
    rw [this]

/-- Witness for C2: with one worker pinned at CPU 100 against threshold 50,
`MAX_RETRIES = 5` and `BASE_WAIT_TIME = 30`, the admission check sleeps
30, 60, 120, 240, 480 seconds and reports exhaustion; with the workers
dropping below threshold at the third poll, it sleeps 30 and 60 seconds
only and does not report exhaustion. -/
theorem throttle_backoff_spec_witness :
    throttleRun (fun _ => [⟨100, 0⟩]) 50 50 30 5 = ([30, 60, 120, 240, 480], true) ∧
    throttleRun (fun k => if k = 2 then [] else [⟨100, 0⟩]) 50 50 30 5 = ([30, 60], false) := by
  constructor
  · have h := (throttle_backoff_spec (fun _ => [⟨100, 0⟩]) 50 50 30 5).1
      (fun k _ => by norm_num [allBelowThresholds])
    rw [h]
    norm_num [List.range_succ]
  · have h := (throttle_backoff_spec (fun k => if k = 2 then [] else [⟨100, 0⟩]) 50 50 30 5).2 2
      (by omega) (by norm_num [allBelowThresholds])
      (fun k hk => by
        interval_cases k <;> norm_num [allBelowThresholds])
    rw [h]
    norm_num [List.range_succ]

/-! ### Submission-loop lemmas -/

/-- The validation and test submission loops implement the same
lookup-or-skip policy over indexed batches. -/
theorem testSubmit_eq_valSubmit (fail : Nat → Bool) (idx : List (KeyT × Nat)) (iter : Nat) :
    ∀ bs, testSubmit fail idx iter bs = valSubmit fail idx iter bs := by
  intro bs
  induction bs with
  | nil => rfl
  | cons b rest ih =>
    obtain ⟨j, h, k⟩ := b
    simp only [testSubmit, valSubmit, ih]

/-- Every batch index appearing in any output of the validation submission
loop over `enumFrom s bs` lies in `[s, s + bs.length)`. -/
theorem valSubmit_enum_bounds (fail : Nat → Bool) (idx : List (KeyT × Nat)) (iter : Nat) :
    ∀ (bs : List (Nat × KeyT)) (s : Nat),
      (∀ t ∈ (valSubmit fail idx iter (enumFrom s bs)).1,
        s ≤ t.batchIdx ∧ t.batchIdx < s + bs.length) ∧
      (∀ e ∈ (valSubmit fail idx iter (enumFrom s bs)).2.1,
        s ≤ e.1 ∧ e.1 < s + bs.length) ∧
      (∀ e ∈ (valSubmit fail idx iter (enumFrom s bs)).2.2,
        s ≤ e.1 ∧ e.1 < s + bs.length) := by
  intro bs
  induction bs with
  | nil =>
    intro s
    refine ⟨?_, ?_, ?_⟩ <;> intro x hx <;> simp [enumFrom, valSubmit] at hx
  | cons b rest ih =>
    intro s
    obtain ⟨h, k⟩ := b
    have ihs := ih (s + 1)
    simp only [enumFrom, valSubmit, List.length_cons]
    cases hdl : dictLookup idx k with
    | none =>
      refine ⟨?_, ?_, ?_⟩
      · intro t ht
        have hb := ihs.1 t ht
        omega
      · intro e he
        rcases List.mem_cons.mp he with rfl | hmem
        · exact ⟨le_rfl, show s < s + (rest.length + 1) from by omega⟩
        · have hb := ihs.2.1 e hmem
          omega
      · intro e he
        have hb := ihs.2.2 e he
        omega
    | some m =>
      cases hf : fail h with
      | true =>
        refine ⟨?_, ?_, ?_⟩
        · intro t ht
          have hb := ihs.1 t ht
          omega
        · intro e he
          have hb := ihs.2.1 e he
          omega
        · intro e he
          rcases List.mem_cons.mp he with rfl | hmem
          · exact ⟨le_rfl, show s < s + (rest.length + 1) from by omega⟩
          · have hb := ihs.2.2 e hmem
            omega
      | false =>
        refine ⟨?_, ?_, ?_⟩
        · intro t ht
          rcases List.mem_cons.mp ht with rfl | hmem
          · exact ⟨le_rfl, show s < s + (rest.length + 1) from by omega⟩
          · have hb := ihs.1 t hmem
            omega
        · intro e he
          have hb := ihs.2.1 e he
          omega
        · intro e he
          have hb := ihs.2.2 e he
          omega

/-- A filter on an index predicate that holds nowhere yields length 0. -/
theorem filter_beq_length_zero {α : Type} (f : α → Nat) (j : Nat) :
    ∀ l : List α, (∀ x ∈ l, f x ≠ j) → (l.filter (fun x => f x == j)).length = 0 := by
  intro l
  induction l with
  | nil => intro _; rfl
  | cons x xs ih =>
    intro h
    have hx : (f x == j) = false := by
      simp only [beq_eq_false_iff_ne]
      exact h x (List.mem_cons_self x xs)
    simp only [List.filter_cons, hx, Bool.false_eq_true, if_false]
    exact ih (fun y hy => h y (List.mem_cons_of_mem x hy))

/-- A batch at position `j` whose key misses the model index contributes no
submitted task, exactly one miss log, and no exception log. -/
theorem valSubmit_at_missing (fail : Nat → Bool) (idx : List (KeyT × Nat)) (iter : Nat) :
    ∀ (bs : List (Nat × KeyT)) (s j h : Nat) (k : KeyT),
      bs.get? j = some (h, k) → dictLookup idx k = none →
      ((valSubmit fail idx iter (enumFrom s bs)).1.filter
        (fun t => t.batchIdx == s + j)).length = 0 ∧
      ((valSubmit fail idx iter (enumFrom s bs)).2.1.filter
        (fun e => e.1 == s + j)).length = 1 ∧
      ((valSubmit fail idx iter (enumFrom s bs)).2.2.filter
        (fun e => e.1 == s + j)).length = 0 := by
  intro bs
  induction bs with
  | nil => intro s j h k hj _; simp at hj
  | cons b rest ih =>
    intro s j h k hj hk
    obtain ⟨h0, k0⟩ := b
    have hbounds := valSubmit_enum_bounds fail idx iter rest (s + 1)
    cases j with
    | zero =>
      have hj0 : h0 = h ∧ k0 = k := by simpa using hj
      obtain ⟨rfl, rfl⟩ := hj0
      simp only [enumFrom, valSubmit, hk, Nat.add_zero]
      refine ⟨?_, ?_, ?_⟩
      · exact filter_beq_length_zero _ s _ (fun t ht => by have := hbounds.1 t ht; omega)
      · have hs : ((s, k0).1 == s) = true := by simp
        simp only [List.filter_cons, hs, if_true, List.length_cons]
        rw [filter_beq_length_zero _ s _ (fun e he => by have := hbounds.2.1 e he; omega)]
      · exact filter_beq_length_zero _ s _ (fun e he => by have := hbounds.2.2 e he; omega)
    | succ n =>
      have hjr : rest.get? n = some (h, k) := by simpa using hj
      have ihm := ih (s + 1) n h k hjr hk
      have hs : (s == s + 1 + n) = false := by
        simp only [beq_eq_false_iff_ne]
        omega
      have hrw : s + (n + 1) = s + 1 + n := by omega
      simp only [enumFrom, valSubmit, hrw]
      cases hdl : dictLookup idx k0 with
      | none =>
        simp only [List.filter_cons, hs, Bool.false_eq_true, if_false]
        exact ihm
      | some m =>
        cases hf : fail h0 with
        | true =>
          simp only [List.filter_cons, hs, Bool.false_eq_true, if_false]
          exact ihm
        | false =>
          simp only [List.filter_cons, hs, Bool.false_eq_true, if_false]
          exact ihm

/-- A batch at position `j` whose key is present but whose submission
raises contributes no submitted task, no miss log, and exactly one
exception log. -/
theorem valSubmit_at_failing (fail : Nat → Bool) (idx : List (KeyT × Nat)) (iter : Nat) :
    ∀ (bs : List (Nat × KeyT)) (s j h m : Nat) (k : KeyT),
      bs.get? j = some (h, k) → dictLookup idx k = some m → fail h = true →
      ((valSubmit fail idx iter (enumFrom s bs)).1.filter
        (fun t => t.batchIdx == s + j)).length = 0 ∧
      ((valSubmit fail idx iter (enumFrom s bs)).2.1.filter
        (fun e => e.1 == s + j)).length = 0 ∧
      ((valSubmit fail idx iter (enumFrom s bs)).2.2.filter
        (fun e => e.1 == s + j)).length = 1 := by
  intro bs
  induction bs with
  | nil => intro s j h m k hj _ _; simp at hj
  | cons b rest ih =>
    intro s j h m k hj hk hf
    obtain ⟨h0, k0⟩ := b
    have hbounds := valSubmit_enum_bounds fail idx iter rest (s + 1)
    cases j with
    | zero =>
      have hj0 : h0 = h ∧ k0 = k := by simpa using hj
      obtain ⟨rfl, rfl⟩ := hj0
      simp only [enumFrom, valSubmit, hk, hf, Nat.add_zero, if_true]
      refine ⟨?_, ?_, ?_⟩
      · exact filter_beq_length_zero _ s _ (fun t ht => by have := hbounds.1 t ht; omega)
      · exact filter_beq_length_zero _ s _ (fun e he => by have := hbounds.2.1 e he; omega)
      · have hs : ((s, k0).1 == s) = true := by simp
        simp only [List.filter_cons, hs, if_true, List.length_cons]
        rw [filter_beq_length_zero _ s _ (fun e he => by have := hbounds.2.2 e he; omega)]
    | succ n =>
      have hjr : rest.get? n = some (h, k) := by simpa using hj
      have ihm := ih (s + 1) n h m k hjr hk hf
      have hs : (s == s + 1 + n) = false := by
        simp only [beq_eq_false_iff_ne]
        omega
      have hrw : s + (n + 1) = s + 1 + n := by omega
      simp only [enumFrom, valSubmit, hrw]
      cases hdl : dictLookup idx k0 with
      | none =>
        simp only [List.filter_cons, hs, Bool.false_eq_true, if_false]
        exact ihm
      | some m0 =>
        cases hf0 : fail h0 with
        | true =>
          simp only [List.filter_cons, hs, Bool.false_eq_true, if_false]
          exact ihm
        | false =>
          simp only [List.filter_cons, hs, Bool.false_eq_true, if_false]
          exact ihm

/-! ### C4: lookup-miss skip policy -/

/-- C4: a validation or test batch whose key `(n_topics, alpha, beta)` is
absent from `train_models_dict` at submission time contributes zero
submitted tasks and exactly one logged error, and the loop continues with
the next batch (the submission functions are total, so no exception
propagates). -/
theorem missing_key_skip (fail : Nat → Bool) (idx : List (KeyT × Nat)) (iter j h : Nat)
    (k : KeyT) (bs : List (Nat × KeyT))
    (hj : bs.get? j = some (h, k)) (hk : dictLookup idx k = none) :
    (((valSubmit fail idx iter (enumFrom 0 bs)).1.filter
        (fun t => t.batchIdx == j)).length = 0 ∧
      ((valSubmit fail idx iter (enumFrom 0 bs)).2.1.filter
        (fun e => e.1 == j)).length = 1) ∧
    (((testSubmit fail idx iter (enumFrom 0 bs)).1.filter
        (fun t => t.batchIdx == j)).length = 0 ∧
      ((testSubmit fail idx iter (enumFrom 0 bs)).2.1.filter
        (fun e => e.1 == j)).length = 1) := by
  have hv := valSubmit_at_missing fail idx iter bs 0 j h k hj hk
  simp only [Nat.zero_add] at hv
  refine ⟨⟨hv.1, hv.2.1⟩, ?_⟩
  rw [testSubmit_eq_valSubmit]
  exact ⟨hv.1, hv.2.1⟩

/-- Witness for C4: a single validation/test batch with a key missing from
an empty model index yields zero tasks and one miss log in both loops. -/
theorem missing_key_skip_witness :
    (((valSubmit (fun _ => false) [] 0 (enumFrom 0 [(7, comboKey comboEx)])).1.filter
        (fun t => t.batchIdx == 0)).length = 0 ∧
      ((valSubmit (fun _ => false) [] 0 (enumFrom 0 [(7, comboKey comboEx)])).2.1.filter
        (fun e => e.1 == 0)).length = 1) ∧
    (((testSubmit (fun _ => false) [] 0 (enumFrom 0 [(7, comboKey comboEx)])).1.filter
        (fun t => t.batchIdx == 0)).length = 0 ∧
      ((testSubmit (fun _ => false) [] 0 (enumFrom 0 [(7, comboKey comboEx)])).2.1.filter
        (fun e => e.1 == 0)).length = 1) :=
  missing_key_skip (fun _ => false) [] 0 0 7 (comboKey comboEx) [(7, comboKey comboEx)]
    rfl rfl

/-! ### C9: zip truncation -/

/-- C9: the validation pairing truncates to the shorter of the validation
pool and the sampled-combination list: the batch list has length
`min(pool, combos)`, and every submitted task, miss log, and exception log
carries a batch index below that bound, so excess batches on either side
are never submitted and produce no logged skip. -/
theorem validation_zip_truncates (pool : List Nat) (combos : List Combo)
    (fail : Nat → Bool) (idx : List (KeyT × Nat)) (iter : Nat) :
    (validationBatches pool combos).length = min pool.length combos.length ∧
    (∀ t ∈ (valSubmit fail idx iter (enumFrom 0 (validationBatches pool combos))).1,
      t.batchIdx < min pool.length combos.length) ∧
    (∀ e ∈ (valSubmit fail idx iter (enumFrom 0 (validationBatches pool combos))).2.1,
      e.1 < min pool.length combos.length) ∧
    (∀ e ∈ (valSubmit fail idx iter (enumFrom 0 (validationBatches pool combos))).2.2,
      e.1 < min pool.length combos.length) := by
  have hlen : (validationBatches pool combos).length = min pool.length combos.length := by
    simp [validationBatches]
  have hb := valSubmit_enum_bounds fail idx iter (validationBatches pool combos) 0
  refine ⟨hlen, ?_, ?_, ?_⟩
  · intro t ht
    have h2 := (hb.1 t ht).2
    rw [Nat.zero_add, hlen] at h2
    exact h2
  · intro e he
    have h2 := (hb.2.1 e he).2
    rw [Nat.zero_add, hlen] at h2
    exact h2
  · intro e he
    have h2 := (hb.2.2 e he).2
    rw [Nat.zero_add, hlen] at h2
    exact h2

/-- Witness for C9: a two-handle pool zipped with one sampled combination
yields exactly one batch, and the resulting miss log's index is below the
truncated length. -/
theorem validation_zip_truncates_witness :
    (validationBatches [5, 6] [comboEx]).length = 1 ∧ (0 : Nat) < 1 := by
  have h := validation_zip_truncates [5, 6] [comboEx] (fun _ => false) [] 0
  refine ⟨by simpa using h.1, ?_⟩
  have hm : (0, comboKey comboEx) ∈
      (valSubmit (fun _ => false) [] 0
        (enumFrom 0 (validationBatches [5, 6] [comboEx]))).2.1 := by decide
  exact h.2.2.1 (0, comboKey comboEx) hm

/-! ### C7: submission failure semantics -/

/-- A failing handle anywhere in the train pool makes the training
submission loop re-raise, with the full parameter context logged. -/
theorem trainSubmit_error (fail : Nat → Bool) (k : KeyT) :
    ∀ pool : List Nat, (∃ x ∈ pool, fail x = true) →
      trainSubmit fail k pool = Except.error k := by
  intro pool
  induction pool with
  | nil => intro h; obtain ⟨x, hx, _⟩ := h; exact absurd hx (List.not_mem_nil x)
  | cons y ys ih =>
    intro h
    cases hy : fail y with
    | true => simp only [trainSubmit, hy]
    | false =>
      obtain ⟨x, hx, hfx⟩ := h
      rcases List.mem_cons.mp hx with rfl | hmem
      · rw [hy] at hfx; exact absurd hfx (by simp)
      · have hrec := ih ⟨x, hmem, hfx⟩
        simp only [trainSubmit, hy, hrec]

/-- When no submission raises, the training loop returns one future per
train-pool handle. -/
theorem trainSubmit_ok (fail : Nat → Bool) (k : KeyT) :
    ∀ pool : List Nat, (∀ x ∈ pool, fail x = false) →
      trainSubmit fail k pool = Except.ok (pool.map (fun x => (k, x))) := by
  intro pool
  induction pool with
  | nil => intro _; rfl
  | cons y ys ih =>
    intro h
    have hy : fail y = false := h y (List.mem_cons_self y ys)
    have hys := ih (fun x hx => h x (List.mem_cons_of_mem y hx))
    simp only [trainSubmit, hy, hys, List.map_cons]

/-- C7: a raising training submission is logged with the full parameter
context and re-raised, halting the run (`Except.error`), while with no
failure the loop returns all futures; a raising validation submission for
a batch whose key was found is logged once and that batch is dropped, with
no exception propagating — the loop is total and continues. -/
theorem submit_failure_semantics (fail : Nat → Bool) (k : KeyT) (pool : List Nat)
    (idx : List (KeyT × Nat)) (iter j h m : Nat) (kk : KeyT) (bs : List (Nat × KeyT)) :
    ((∃ x ∈ pool, fail x = true) → trainSubmit fail k pool = Except.error k) ∧
    ((∀ x ∈ pool, fail x = false) →
      trainSubmit fail k pool = Except.ok (pool.map (fun x => (k, x)))) ∧
    (bs.get? j = some (h, kk) → dictLookup idx kk = some m → fail h = true →
      ((valSubmit fail idx iter (enumFrom 0 bs)).1.filter
        (fun t => t.batchIdx == j)).length = 0 ∧
      ((valSubmit fail idx iter (enumFrom 0 bs)).2.2.filter
        (fun e => e.1 == j)).length = 1) := by
  refine ⟨trainSubmit_error fail k pool, trainSubmit_ok fail k pool, ?_⟩
  intro hj hkk hf
  have hv := valSubmit_at_failing fail idx iter bs 0 j h m kk hj hkk hf
  simp only [Nat.zero_add] at hv
  exact ⟨hv.1, hv.2.2⟩

/-- Witness for C7: handle 9 raises; training over pool [9] re-raises,
training over pool [3] succeeds, and a found-key validation batch on
handle 9 is dropped with one exception log. -/
theorem submit_failure_semantics_witness :
    trainSubmit (fun x => x == 9) (comboKey comboEx) [9] =
      Except.error (comboKey comboEx) ∧
    trainSubmit (fun x => x == 9) (comboKey comboEx) [3] =
      Except.ok [(comboKey comboEx, 3)] ∧
    (((valSubmit (fun x => x == 9) [(comboKey comboEx, 0)] 0
        (enumFrom 0 [(9, comboKey comboEx)])).1.filter
        (fun t => t.batchIdx == 0)).length = 0 ∧
      ((valSubmit (fun x => x == 9) [(comboKey comboEx, 0)] 0
        (enumFrom 0 [(9, comboKey comboEx)])).2.2.filter
        (fun e => e.1 == 0)).length = 1) := by
  refine ⟨?_, ?_, ?_⟩
  · exact (submit_failure_semantics (fun x => x == 9) (comboKey comboEx) [9] [] 0 0 0 0
      (comboKey comboEx) []).1 ⟨9, by decide, by decide⟩
  · exact (submit_failure_semantics (fun x => x == 9) (comboKey comboEx) [3] [] 0 0 0 0
      (comboKey comboEx) []).2.1 (by decide)
  · exact (submit_failure_semantics (fun x => x == 9) (comboKey comboEx) [] [(comboKey comboEx, 0)]
      0 0 9 0 (comboKey comboEx) [(9, comboKey comboEx)]).2.2 rfl (by decide) rfl

/-! ### C1 and C3: cross-iteration pairing and ModelIndex survival -/

/-- An element of `enumFrom s xs` is an in-range position paired with the
element of `xs` at that position. -/
theorem enumFrom_mem {α : Type} : ∀ (xs : List α) (s j : Nat) (x : α),
    (j, x) ∈ enumFrom s xs → ∃ d, j = s + d ∧ xs.get? d = some x := by
  intro xs
  induction xs with
  | nil => intro s j x hx; simp [enumFrom] at hx
  | cons y ys ih =>
    intro s j x hx
    rcases List.mem_cons.mp hx with heq | hmem
    · rw [Prod.mk.injEq] at heq
      obtain ⟨rfl, rfl⟩ := heq
      exact ⟨0, by omega, rfl⟩
    · obtain ⟨d, hd, hget⟩ := ih (s + 1) j x hmem
      exact ⟨d + 1, by omega, hget⟩

/-- A pair read from a zip comes from the same position of both lists. -/
theorem zip_get_some {α β : Type} :
    ∀ (l1 : List α) (l2 : List β) (j : Nat) (p : α × β),
      (l1.zip l2).get? j = some p → l1.get? j = some p.1 ∧ l2.get? j = some p.2 := by
  intro l1
  induction l1 with
  | nil => intro l2 j p hp; simp at hp
  | cons x xs ih =>
    intro l2 j p hp
    cases l2 with
    | nil => simp at hp
    | cons y ys =>
      cases j with
      | zero =>
        have hxy : (x, y) = p := by simpa using hp
        subst hxy
        exact ⟨rfl, rfl⟩
      | succ n =>
        have hp2 : (xs.zip ys).get? n = some p := by simpa using hp
        exact ih ys n p hp2

/-- The batch at position `j` of `validation_batches` carries the key of
the `j`-th sampled combination. -/
theorem validationBatches_get (pool : List Nat) (combos : List Combo) (j h : Nat) (k : KeyT)
    (hget : (validationBatches pool combos).get? j = some (h, k)) :
    ∃ c, combos.get? j = some c ∧ k = comboKey c := by
  rw [validationBatches, List.get?_map] at hget
  cases hz : (pool.zip combos).get? j with
  | none => rw [hz] at hget; simp at hget
  | some hc =>
    rw [hz] at hget
    simp only [Option.map_some', Option.some.injEq, Prod.mk.injEq] at hget
    obtain ⟨hzc1, hzc2⟩ := zip_get_some pool combos j hc hz
    exact ⟨hc.2, hzc2, hget.2.symm⟩

/-- Every task submitted by the validation loop is tagged with the current
iteration, originates from a listed batch, and carries the artifact the
model index holds for that batch's key. -/
theorem valSubmit_tasks_src (fail : Nat → Bool) (idx : List (KeyT × Nat)) (iter : Nat) :
    ∀ (bs : List (Nat × Nat × KeyT)) (t : ValTask),
      t ∈ (valSubmit fail idx iter bs).1 →
      t.iteration = iter ∧
      ∃ h, (t.batchIdx, h, t.key) ∈ bs ∧ dictLookup idx t.key = some t.artifact := by
  intro bs
  induction bs with
  | nil => intro t ht; simp [valSubmit] at ht
  | cons b rest ih =>
    intro t ht
    obtain ⟨j, h, k⟩ := b
    cases hdl : dictLookup idx k with
    | none =>
      simp only [valSubmit, hdl] at ht
      obtain ⟨hi, h2, hmem, hlk⟩ := ih t ht
      exact ⟨hi, h2, List.mem_cons_of_mem _ hmem, hlk⟩
    | some m =>
      cases hf : fail h with
      | true =>
        simp only [valSubmit, hdl, hf] at ht
        obtain ⟨hi, h2, hmem, hlk⟩ := ih t ht
        exact ⟨hi, h2, List.mem_cons_of_mem _ hmem, hlk⟩
      | false =>
        simp only [valSubmit, hdl, hf] at ht
        rcases List.mem_cons.mp ht with rfl | hmem
        · exact ⟨rfl, h, List.mem_cons_self _ _, hdl⟩
        · obtain ⟨hi, h2, hmem2, hlk⟩ := ih t hmem
          exact ⟨hi, h2, List.mem_cons_of_mem _ hmem2, hlk⟩

/-- Every validation task of the sweep was produced by some iteration's
validation loop over the batches zipped from the whole sampled list. -/
theorem sweep_tasks_src (trainPool valPool : List Nat) (allCombos : List Combo) :
    ∀ (rest : List Combo) (i : Nat) (idx : List (KeyT × Nat)) (t : ValTask),
      t ∈ (sweepFrom trainPool valPool allCombos i rest idx).2 →
      ∃ i1 idx1, t ∈ (valSubmit (fun _ => false) idx1 i1
        (enumFrom 0 (validationBatches valPool allCombos))).1 := by
  intro rest
  induction rest with
  | nil => intro i idx t ht; simp [sweepFrom] at ht
  | cons c cs ih =>
    intro i idx t ht
    simp only [sweepFrom] at ht
    rcases List.mem_append.mp ht with hmem | hmem
    · exact ⟨i, trainWave idx i (comboKey c) trainPool, hmem⟩
    · exact ih (i + 1) (trainWave idx i (comboKey c) trainPool) t hmem

/-- C1 counterexample: in the run with train pool `[0]`, validation pool
`[0, 1]` and sampled combinations `[comboEx, comboEx2]` (keys `(1, sym, sym)`
and `(2, sym, sym)`), iteration 1 — whose sampled combination is `comboEx2`
— submits a validation task whose ModelIndex lookup key is
`(1, sym, sym)`, the key of combination 0, not the current combination's
key: the zip at lines 644-647 pairs batches with the whole sampled list
positionally, not with the loop's current combination. -/
theorem validate_pairing_counterexample :
    ([comboEx, comboEx2] : List Combo).get? 1 = some comboEx2 ∧
    (⟨1, 0, (1, Prior.symmetric, Prior.symmetric), 0⟩ : ValTask) ∈
      (sweepRun [0] [0, 1] [comboEx, comboEx2]).2 ∧
    (1, Prior.symmetric, Prior.symmetric) ≠ comboKey comboEx2 := by
  refine ⟨by decide, by decide, by decide⟩

/-- C1 amended: VALIDATE_SUBMIT pairs the j-th validation-pool handle with
the key of the j-th sampled combination (positional zip over the whole
sampled list, identical in every iteration): every submitted validation
task's lookup key is the key of the sampled combination at the task's
batch position — which need not be the iteration's current combination. -/
theorem validate_pairing_amended (trainPool valPool : List Nat) (combos : List Combo)
    (t : ValTask) (ht : t ∈ (sweepRun trainPool valPool combos).2) :
    ∃ c, combos.get? t.batchIdx = some c ∧ t.key = comboKey c := by
  obtain ⟨i1, idx1, hmem⟩ := sweep_tasks_src trainPool valPool combos combos 0 [] t ht
  obtain ⟨_, h, hbs, _⟩ := valSubmit_tasks_src (fun _ => false) idx1 i1
    (enumFrom 0 (validationBatches valPool combos)) t hmem
  obtain ⟨d, hd, hget⟩ := enumFrom_mem (validationBatches valPool combos) 0 t.batchIdx
    (h, t.key) hbs
  rw [Nat.zero_add] at hd
  obtain ⟨c, hc, hk⟩ := validationBatches_get valPool combos d h t.key hget
  rw [hd]
  exact ⟨c, hc, hk⟩

/-- Witness for the amended C1 theorem: the single task of a one-combination
run carries the key of the sampled combination at its batch position. -/
theorem validate_pairing_amended_witness :
    ∃ c, ([comboEx] : List Combo).get? 0 = some c ∧
      ((1 : Nat), Prior.symmetric, Prior.symmetric) = comboKey c :=
  validate_pairing_amended [0] [0] [comboEx]
    ⟨0, 0, (1, Prior.symmetric, Prior.symmetric), 0⟩ (by decide)

/-- Prepending an entry preserves the presence of any key in the index. -/
theorem dictLookup_cons_isSome (e : KeyT × Nat) (idx : List (KeyT × Nat)) (k : KeyT)
    (h : ∃ v, dictLookup idx k = some v) : ∃ v, dictLookup (e :: idx) k = some v := by
  obtain ⟨v, hv⟩ := h
  obtain ⟨k1, v1⟩ := e
  by_cases hk : k1 = k
  · exact ⟨v1, by simp [dictLookup, hk]⟩
  · exact ⟨v, by simp [dictLookup, hk, hv]⟩

/-- A training wave only prepends entries, so present keys stay present. -/
theorem trainWave_lookup_preserve (i : Nat) (k1 : KeyT) (pool : List Nat) :
    ∀ (idx : List (KeyT × Nat)) (k : KeyT), (∃ v, dictLookup idx k = some v) →
      ∃ v, dictLookup (trainWave idx i k1 pool) k = some v := by
  induction pool with
  | nil => intro idx k h; exact h
  | cons x xs ih =>
    intro idx k h
    exact ih ((k1, i) :: idx) k (dictLookup_cons_isSome (k1, i) idx k h)

/-- A training wave over a nonempty pool leaves its own key mapped to the
current iteration's artifact. -/
theorem trainWave_lookup_self (i : Nat) (k : KeyT) :
    ∀ (pool : List Nat) (idx : List (KeyT × Nat)), pool ≠ [] →
      dictLookup (trainWave idx i k pool) k = some i := by
  intro pool
  induction pool with
  | nil => intro idx h; exact absurd rfl h
  | cons x xs ih =>
    intro idx _
    cases xs with
    | nil =>
      show dictLookup ((k, i) :: idx) k = some i
      simp [dictLookup]
    | cons y ys =>
      exact ih ((k, i) :: idx) (by simp)

/-- The sweep never removes model-index entries: a key present before some
iterations run is still present afterwards. -/
theorem sweepFrom_lookup_preserve (trainPool valPool : List Nat) (allCombos : List Combo) :
    ∀ (rest : List Combo) (i : Nat) (idx : List (KeyT × Nat)) (k : KeyT),
      (∃ v, dictLookup idx k = some v) →
      ∃ v, dictLookup (sweepFrom trainPool valPool allCombos i rest idx).1 k = some v := by
  intro rest
  induction rest with
  | nil => intro i idx k h; exact h
  | cons c cs ih =>
    intro i idx k h
    exact ih (i + 1) (trainWave idx i (comboKey c) trainPool) k
      (trainWave_lookup_preserve i (comboKey c) trainPool idx k h)

/-- C3 counterexample: in the run with train pool `[0]`, validation pool
`[0, 1]` and sampled combinations `[comboEx, comboEx2]`, iteration 1's
validation submission looks up key `(1, sym, sym)` and retrieves the
artifact written during iteration 0's training wave (`artifact = 0 <
iteration = 1`): RECYCLE clears the futures lists but never clears
`train_models_dict`, so the lookup reaches across iterations. -/
theorem modelindex_recycle_counterexample :
    (⟨1, 0, (1, Prior.symmetric, Prior.symmetric), 0⟩ : ValTask) ∈
      (sweepRun [0] [0, 1] [comboEx, comboEx2]).2 ∧
    (⟨1, 0, (1, Prior.symmetric, Prior.symmetric), 0⟩ : ValTask).artifact <
      (⟨1, 0, (1, Prior.symmetric, Prior.symmetric), 0⟩ : ValTask).iteration := by
  refine ⟨by decide, by decide⟩

/-- C3 amended: ModelIndex entries DO survive across sweep iterations.
RECYCLE clears the per-iteration futures lists but never clears
`train_models_dict`: with a nonempty train pool, the key of every sampled
combination processed by the sweep is still present in the final model
index, so a validation or test lookup in a later iteration can retrieve an
artifact trained in an earlier one. -/
theorem modelindex_persists_amended (trainPool valPool : List Nat) (allCombos : List Combo) :
    ∀ (rest : List Combo) (i : Nat) (idx : List (KeyT × Nat)) (c : Combo),
      c ∈ rest → trainPool ≠ [] →
      ∃ m, dictLookup (sweepFrom trainPool valPool allCombos i rest idx).1 (comboKey c) =
        some m := by
  intro rest
  induction rest with
  | nil => intro i idx c hc _; exact absurd hc (List.not_mem_nil c)
  | cons c0 cs ih =>
    intro i idx c hc hp
    rcases List.mem_cons.mp hc with rfl | hmem
    · exact sweepFrom_lookup_preserve trainPool valPool allCombos cs (i + 1)
        (trainWave idx i (comboKey c) trainPool) (comboKey c)
        ⟨i, trainWave_lookup_self i (comboKey c) trainPool idx hp⟩
    · exact ih (i + 1) (trainWave idx i (comboKey c0) trainPool) c hmem hp

/-- Witness for the amended C3 theorem: after a one-combination sweep with
a nonempty train pool, the combination's key is still in the index. -/
theorem modelindex_persists_amended_witness :
    ∃ m, dictLookup (sweepFrom [0] [] [comboEx] 0 [comboEx] []).1 (comboKey comboEx) =
      some m :=
  modelindex_persists_amended [0] [] [comboEx] [comboEx] 0 [] comboEx (by decide) (by decide)

end UTMA
